import Mathlib

/-!
Verification of the pysparkling job execution engine (src/pysparkling/context.py)
against its natural-language specification.

The engine's pure algorithms (`Context.parallelize`, `Context.runJob`,
`Context._runJob_local`, `Context._runJob_distributed`, `runJob_map`,
`Context.newRddId`, `DummyPool`, the `_stats` accumulation) are shallowly
embedded as executable Lean functions.  Collaborators whose source is not in
scope (`CacheManager`, `Partition`, `TaskContext`, the `RDD.compute` contract)
are modelled from the spec, as marked in their doc comments.
-/

namespace Pysparkling

/-- Modelled from the spec: `Partition` (src/pysparkling/partition.py is not in
scope).  Per spec §3 it carries the raw `data` argument `x` and a zero-based
`index`, matching the constructor calls `Partition(x, 0)` and
`Partition(p_data, i)` in context.py. -/
structure Partition (α : Type) where
  x : α
  index : Nat
deriving DecidableEq, Repr

/-- Modelled from the spec: `TaskContext` (src/pysparkling/task_context.py is
not in scope).  Per spec §3: a `stage_id` (always 0 in this engine) and a
`partition_id`. -/
structure TaskContext where
  stage_id : Nat
  partition_id : Nat
deriving DecidableEq, Repr

/-- Start index of the slice for partition `i` in `Context.parallelize`:
`start = int(i * len_x / numPartitions)` (context.py line 146).  Python's true
division followed by `int` truncation on these non-negative integers is
modelled as exact floor division. -/
def sliceStart (len_x numPartitions i : Nat) : Nat := i * len_x / numPartitions

/-- End index of the slice for partition `i`:
`end = int((i+1) * len_x / numPartitions)`, incremented by one for the last
partition (context.py lines 147-149). -/
def sliceStop (len_x numPartitions i : Nat) : Nat :=
  if i + 1 = numPartitions then (i + 1) * len_x / numPartitions + 1
  else (i + 1) * len_x / numPartitions

/-- The half-open slice `[sliceStart, sliceStop)` of the collection `x`
assigned to partition `i` (clipped at the end of the collection, which only
matters for the last partition whose upper bound exceeds the length by one). -/
def sliceOf (x : List α) (numPartitions i : Nat) : List α :=
  (x.drop (sliceStart x.length numPartitions i)).take
    (sliceStop x.length numPartitions i - sliceStart x.length numPartitions i)

/-- The generator `partitioned()` of `Context.parallelize` (context.py lines
144-150).  The loop body at counter `i` yields `islice(x, end - start)`, i.e.
it slices the next `end - start` elements off the shared iterator over `x`;
`fuel` counts the remaining loop iterations (`numPartitions - i`). -/
def partitionedAux (len_x numPartitions : Nat) : Nat → Nat → List α → List (List α)
  | 0, _, _ => []
  | fuel + 1, i, rem =>
    let s := i * len_x / numPartitions
    let e := if i + 1 = numPartitions then (i + 1) * len_x / numPartitions + 1
             else (i + 1) * len_x / numPartitions
    rem.take (e - s) :: partitionedAux len_x numPartitions fuel (i + 1) (rem.drop (e - s))

/-- `Context.parallelize` (context.py lines 123-152) composed with
`Context._parallelize_partitions` (lines 154-168): a falsy partition count
gives one partition holding everything, otherwise the `partitioned()` slices
are wrapped into `Partition`s by `enumerate`. -/
def parallelize (x : List α) (numPartitions : Nat) : List (Partition (List α)) :=
  if numPartitions = 0 then [⟨x, 0⟩]
  else (partitionedAux x.length numPartitions numPartitions 0 x).enum.map
    fun ip => ⟨ip.2, ip.1⟩

lemma sliceStart_le_next (L N i : Nat) :
    sliceStart L N i ≤ (i + 1) * L / N :=
  Nat.div_le_div_right (Nat.mul_le_mul_right _ (Nat.le_succ i))

lemma partitionedAux_eq_slices (x : List α) (N : Nat) :
    ∀ (k i : Nat), i + k = N →
      partitionedAux x.length N k i (x.drop (sliceStart x.length N i))
        = (List.range k).map fun j => sliceOf x N (i + j) := by
  intro k
  induction k with
  | zero => intro i _; simp [partitionedAux]
  | succ k ih =>
    intro i h
    by_cases hlast : i + 1 = N
    · have hk : k = 0 := by omega
      subst hk
      have hr1 : List.range 1 = [0] := rfl
      simp [partitionedAux, sliceOf, sliceStart, sliceStop, hlast, hr1]
    · have hdrop :
          (x.drop (sliceStart x.length N i)).drop
              ((i + 1) * x.length / N - sliceStart x.length N i)
            = x.drop (sliceStart x.length N (i + 1)) := by
        rw [List.drop_drop]
        congr 1
        have := sliceStart_le_next x.length N i
        simp only [sliceStart] at *
        omega
      simp only [partitionedAux, if_neg hlast]
      rw [List.range_succ_eq_map, List.map_cons, List.map_map]
      refine congrArg₂ List.cons ?_ ?_
      · simp [sliceOf, sliceStart, sliceStop, hlast]
      · have hs : sliceStart x.length N i = i * x.length / N := rfl
        rw [← hs, hdrop, ih (i + 1) (by omega)]
        refine List.map_congr_left fun j _ => ?_
        simp only [Function.comp]
        congr 1
        omega

lemma partitionedAux_flatten (x : List α) (N : Nat) :
    ∀ (k i : Nat), i + k = N → 1 ≤ k →
      (partitionedAux x.length N k i (x.drop (sliceStart x.length N i))).flatten
        = x.drop (sliceStart x.length N i) := by
  intro k
  induction k with
  | zero => intro i _ h; omega
  | succ k ih =>
    intro i h _
    by_cases hlast : i + 1 = N
    · have hk : k = 0 := by omega
      subst hk
      have hN : 0 < N := by omega
      have hL : N * x.length / N = x.length := Nat.mul_div_cancel_left _ hN
      have hsle : i * x.length / N ≤ x.length := by
        have h1 : i * x.length / N ≤ N * x.length / N :=
          Nat.div_le_div_right (Nat.mul_le_mul_right _ (by omega))
        omega
      simp only [partitionedAux, List.flatten_cons, List.flatten_nil, List.append_nil]
      rw [if_pos hlast, hlast, hL]
      refine List.take_of_length_le ?_
      rw [List.length_drop]
      simp only [sliceStart]
      omega
    · have hk1 : 1 ≤ k := by omega
      have hdrop :
          (x.drop (sliceStart x.length N i)).drop
              ((i + 1) * x.length / N - sliceStart x.length N i)
            = x.drop (sliceStart x.length N (i + 1)) := by
        rw [List.drop_drop]
        congr 1
        have := sliceStart_le_next x.length N i
        simp only [sliceStart] at *
        omega
      have hs : sliceStart x.length N i = i * x.length / N := rfl
      simp only [partitionedAux, if_neg hlast, List.flatten_cons]
      rw [← hs, hdrop, ih (i + 1) (by omega) hk1, ← hdrop]
      have hnext : sliceStart x.length N (i + 1) = (i + 1) * x.length / N := rfl
      exact List.take_append_drop _ _

/-- C1.  For every collection `x` and every partition count `N` with
`1 ≤ N ≤ length x + 1`, `parallelize` produces `N` partitions, partition `i`
carries index `i` and holds exactly the half-open slice
`[⌊i·L/N⌋, ⌊(i+1)·L/N⌋)` of the collection (the last partition's upper bound
extended by one), their concatenation in index order reconstructs the
collection exactly, and in particular `parallelize [1,2,3,4,5] 2` yields
partitions `[1,2]` and `[3,4,5]`. -/
theorem parallelize_partition_coverage {α : Type} (x : List α) (N : Nat)
    (h1 : 1 ≤ N) (h2 : N ≤ x.length + 1) :
    (parallelize x N).length = N ∧
    (∀ i, i < N → (parallelize x N).getD i ⟨[], 0⟩ = ⟨sliceOf x N i, i⟩) ∧
    ((parallelize x N).map Partition.x).flatten = x ∧
    parallelize ([1, 2, 3, 4, 5] : List Nat) 2 = [⟨[1, 2], 0⟩, ⟨[3, 4, 5], 1⟩] := by
  have hstart0 : sliceStart x.length N 0 = 0 := by simp [sliceStart]
  have hslices : partitionedAux x.length N N 0 x = (List.range N).map fun j => sliceOf x N j := by
    have h := partitionedAux_eq_slices x N N 0 (by omega)
    rw [hstart0, List.drop_zero] at h
    simpa using h
  have hpar : parallelize x N
      = ((List.range N).map fun j => sliceOf x N j).enum.map fun ip => ⟨ip.2, ip.1⟩ := by
    rw [parallelize, if_neg (by omega), hslices]
  refine ⟨?_, ?_, ?_, ?_⟩
  · simp [hpar]
  · intro i hi
    have hlen : i < (((List.range N).map fun j => sliceOf x N j).enum.map
        fun ip => (⟨ip.2, ip.1⟩ : Partition (List α))).length := by
      simp [hi]
    rw [hpar, List.getD_eq_getElem _ _ hlen]
    simp [List.getElem_enum, hi]
  · rw [hpar, List.map_map]
    have hsnd : (((List.range N).map fun j => sliceOf x N j).enum.map
        fun ip => (Partition.x (⟨ip.2, ip.1⟩ : Partition (List α))))
        = ((List.range N).map fun j => sliceOf x N j).enum.map Prod.snd := rfl
    have hcomp : (Partition.x ∘ fun ip : Nat × List α => (⟨ip.2, ip.1⟩ : Partition (List α)))
        = Prod.snd := rfl
    rw [hcomp, List.enum_map_snd, ← hslices]
    have h := partitionedAux_flatten x N N 0 (by omega) (by omega)
    rw [hstart0, List.drop_zero] at h
    exact h
  · rfl

/-- Witness for C1, instantiated at the spec's own scenario. -/
theorem parallelize_partition_coverage_witness :
    (parallelize ([1, 2, 3, 4, 5] : List Nat) 2).length = 2 ∧
    (parallelize ([1, 2, 3, 4, 5] : List Nat) 2).getD 1 ⟨[], 0⟩
      = ⟨sliceOf [1, 2, 3, 4, 5] 2 1, 1⟩ ∧
    ((parallelize ([1, 2, 3, 4, 5] : List Nat) 2).map Partition.x).flatten
      = [1, 2, 3, 4, 5] :=
  ⟨(parallelize_partition_coverage [1, 2, 3, 4, 5] 2 (by decide) (by decide)).1,
   (parallelize_partition_coverage [1, 2, 3, 4, 5] 2 (by decide) (by decide)).2.1 1 (by decide),
   (parallelize_partition_coverage [1, 2, 3, 4, 5] 2 (by decide) (by decide)).2.2.1⟩

/-- Cache identity: the composite key `(dataset_identity, partition_index)`
(spec §3; the lambda at context.py line 272 reads component `i[1]`). -/
abbrev Ident := Nat × Nat

/-- Modelled from the spec: `CacheManager` (src/pysparkling/cache_manager.py is
not in scope).  Per spec §4.1 it maps cache identities to materialized values;
the underlying mapping is the attribute `cache_obj` (read at context.py line
38).  Modelled as an association list whose first binding for a key is the
authoritative one. -/
structure CacheManagerM (μ : Type) where
  cache_obj : List (Ident × μ)
deriving DecidableEq, Repr

/-- Key membership in a `cache_obj` mapping. -/
def containsIdent (o : List (Ident × μ)) (i : Ident) : Bool :=
  o.any fun e => decide (e.1 = i)

/-- Modelled from the spec: the entry-level merge behind
`join` — entries of `other` already present in `self` are not overwritten
(spec §4.1: idempotent merge, first writer wins). -/
def joinObjs (self other : List (Ident × μ)) : List (Ident × μ) :=
  self ++ other.filter fun e => !containsIdent self e.1

/-- Modelled from the spec: `CacheManager.join(other: CacheManager)` merges
`other`'s entries into `self`, never overwriting an existing identity. -/
def CacheManagerM.join (self other : CacheManagerM μ) : CacheManagerM μ :=
  ⟨joinObjs self.cache_obj other.cache_obj⟩

/-- Modelled from the spec: `CacheManager.stored_idents()` returns the
identities currently held. -/
def CacheManagerM.stored_idents (self : CacheManagerM μ) : List Ident :=
  self.cache_obj.map fun e => e.1

/-- Modelled from the spec: `CacheManager.clone_contains(predicate)` returns a
new independent instance holding only the entries whose identity satisfies the
predicate. -/
def CacheManagerM.clone_contains (self : CacheManagerM μ) (pred : Ident → Bool) :
    CacheManagerM μ :=
  ⟨self.cache_obj.filter fun e => pred e.1⟩

/-- Modelled from the spec: `CacheManager.get_not_in(baseline)` returns a new
instance holding only the entries whose identity is absent from `baseline`. -/
def CacheManagerM.get_not_in (self : CacheManagerM μ) (baseline : List Ident) :
    CacheManagerM μ :=
  ⟨self.cache_obj.filter fun e => !baseline.any fun b => decide (b = e.1)⟩

@[simp] lemma CacheManagerM.mk_cache_obj (c : CacheManagerM μ) :
    (⟨c.cache_obj⟩ : CacheManagerM μ) = c := rfl

lemma joinObjs_filter_self (o : List (Ident × μ)) (q : Ident × μ → Bool) :
    joinObjs o (o.filter q) = o := by
  have h : (o.filter q).filter (fun e => !containsIdent o e.1) = [] := by
    rw [List.filter_eq_nil_iff]
    intro e he
    have hmem : e ∈ o := List.mem_of_mem_filter he
    have : containsIdent o e.1 = true := by
      simp only [containsIdent, List.any_eq_true]
      exact ⟨e, hmem, by simp⟩
    simp [this]
  rw [joinObjs, h, List.append_nil]

/-- The timing statistics map `self._stats` (context.py line 112,
`defaultdict(float)`): a string-keyed association list of rationals, with
default value `0` for absent keys.  Timing values are modelled as exact
rationals. -/
abbrev StatsL := List (String × ℚ)

/-- Lookup with the `defaultdict(float)` default of `0`. -/
def getStat : StatsL → String → ℚ
  | [], _ => 0
  | e :: s, k => if e.1 = k then e.2 else getStat s k

/-- Key presence in the statistics map. -/
def hasStat (s : StatsL) (k : String) : Bool :=
  s.any fun e => decide (e.1 = k)

/-- The accumulation `self._stats[k] += v` (context.py lines 273-309). -/
def addStat : StatsL → String → ℚ → StatsL
  | [], k, v => [(k, v)]
  | e :: s, k, v => if e.1 = k then (e.1, e.2 + v) :: s else e :: addStat s k v

/-- The loop `for k, v in s.items(): self._stats[k] += v`
(context.py lines 308-309). -/
def applyStatUpdates (s : StatsL) (us : List (String × ℚ)) : StatsL :=
  us.foldl (fun acc u => addStat acc u.1 u.2) s

/-- The type of the map function handed to `runJob`
(`func(TaskContext, iterator over elements)`, context.py lines 225-227),
modelled as a pure function consuming the computed value. -/
abbrev FuncT (ρ σ : Type) := TaskContext → ρ → σ

/-- The external collaborator contract `rdd.compute(partition, task_context)`
(spec §6): it returns the computed value for the partition, consulting and
updating the active CacheManager, modelled by explicit state passing. -/
abbrev ComputeT (α μ ρ : Type) := Partition α → TaskContext → CacheManagerM μ → ρ × CacheManagerM μ

/-- One worker-result wire triple `(result, cache delta, timing breakdown)`
(context.py lines 52-61). -/
abbrev WireRes (μ σ : Type) := σ × CacheManagerM μ × StatsL

/-- Worker pool handle.  The engine only inspects whether it is the trivial
`DummyPool` (`isinstance(self._pool, DummyPool)`, context.py line 248); the
`map` of the pool modelled here is the sequential generator of
`DummyPool.map` (lines 411-412). -/
structure PoolM where
  isDummy : Bool
deriving DecidableEq, Repr

/-- The `Context` object's configuration (context.py lines 91-112): the pool
and the pluggable serializer/deserializer pairs.  Python stores one dynamically
typed function per direction; the embedding monomorphizes the data pair into
one component per payload type (closure pair, cache fragments, partitions,
result triples). -/
structure ContextM (α μ ρ σ : Type) where
  pool : PoolM
  serializer : FuncT ρ σ × ComputeT α μ ρ → FuncT ρ σ × ComputeT α μ ρ
  deserializer : FuncT ρ σ × ComputeT α μ ρ → FuncT ρ σ × ComputeT α μ ρ
  data_serializer_res : WireRes μ σ → WireRes μ σ
  data_deserializer_res : WireRes μ σ → WireRes μ σ
  data_deserializer_cm : CacheManagerM μ → CacheManagerM μ
  data_deserializer_p : Partition α → Partition α

/-- Environment model for the `time.clock()` readings of one run: the five
driver-side phase durations (context.py lines 273, 278, 283, 299, 305) and
the worker's reported timing dictionary `s` (lines 55-60), per partition.
Durations are inputs of the model because wall time is external to the
program's logic. -/
structure ClockModel (α : Type) where
  d1 : Partition α → ℚ
  d2 : Partition α → ℚ
  d3 : Partition α → ℚ
  d4 : Partition α → ℚ
  d5 : Partition α → ℚ
  wstats : Partition α → StatsL

/-- Evaluation of one partition: build the TaskContext (stage 0, partition id
from the partition) and apply `func` to `rdd.compute`'s value (context.py
lines 48-49 and 260-264). -/
def evalPartition (func : FuncT ρ σ) (compute : ComputeT α μ ρ)
    (p : Partition α) (c : CacheManagerM μ) : σ × CacheManagerM μ :=
  ((func ⟨0, p.index⟩ (compute p ⟨0, p.index⟩ c).1), (compute p ⟨0, p.index⟩ c).2)

/-- `Context._runJob_local` (context.py lines 258-264): evaluate each
partition in order against the process-wide cache, yielding one result per
partition. -/
def runJob_local (func : FuncT ρ σ) (compute : ComputeT α μ ρ) :
    List (Partition α) → CacheManagerM μ → List σ × CacheManagerM μ
  | [], c => ([], c)
  | p :: ps, c =>
    ((evalPartition func compute p c).1 ::
        (runJob_local func compute ps (evalPartition func compute p c).2).1,
      (runJob_local func compute ps (evalPartition func compute p c).2).2)

/-- `runJob_map` (context.py lines 28-61) for an in-process worker whose
process-wide CacheManager singleton already exists (it was created by the
driver at line 267, so under a sequential in-process pool the check at line 34
takes the `else` branch, and `if cache_manager:` at line 33 is truthy because
the field always holds a CacheManager instance).  Line 38 merges the
deserialized fragment's `cache_obj` into the singleton; the singleton state is
threaded explicitly.  Returns the serialized result triple and the new
singleton state. -/
def runJob_map_seq (ctx : ContextM α μ ρ σ) (wst : StatsL)
    (serialized : FuncT ρ σ × ComputeT α μ ρ)
    (serialized_data : Partition α) (cache_manager : CacheManagerM μ)
    (c : CacheManagerM μ) : WireRes μ σ × CacheManagerM μ :=
  let c1 : CacheManagerM μ :=
    ⟨joinObjs c.cache_obj (ctx.data_deserializer_cm cache_manager).cache_obj⟩
  let cm_state := c1.stored_idents
  let fr := ctx.deserializer serialized
  let partition := ctx.data_deserializer_p serialized_data
  let rc := fr.2 partition ⟨0, partition.index⟩ c1
  ((ctx.data_serializer_res (fr.1 ⟨0, partition.index⟩ rc.1, rc.2.get_not_in cm_state, wst)),
    rc.2)

/-- The `prepare(p)` closure of `Context._runJob_distributed` (context.py
lines 270-293), restricted to its two data payloads: the cloned cache
fragment and the partition.  Note lines 277 and 282 apply
`self._data_deserializer` to both payloads. -/
def prepare_bundle (ctx : ContextM α μ ρ σ) (cm : CacheManagerM μ) (p : Partition α) :
    Partition α × CacheManagerM μ :=
  (ctx.data_deserializer_p p,
    ctx.data_deserializer_cm (cm.clone_contains fun i => decide (i.2 = p.index)))

/-- The dispatch loop of `Context._runJob_distributed` (context.py lines
295-311) with a sequential in-process pool (`map` applies `runJob_map` to each
prepared bundle inline, one partition at a time): prepare the bundle, run the
worker, decode the result triple, join the cache delta into the singleton,
accumulate the timing statistics and yield the result. -/
def runJob_distributed_loop (ctx : ContextM α μ ρ σ) (tm : ClockModel α)
    (serialized_func_rdd : FuncT ρ σ × ComputeT α μ ρ) :
    List (Partition α) → CacheManagerM μ → StatsL → List σ × CacheManagerM μ × StatsL
  | [], c, s => ([], c, s)
  | p :: ps, c, s =>
    let bundle := prepare_bundle ctx c p
    let s1 := addStat (addStat (addStat s "driver_cache_clone" (tm.d1 p))
      "driver_cache_serialize" (tm.d2 p)) "driver_serialize_data" (tm.d3 p)
    let dc := runJob_map_seq ctx (tm.wstats p) serialized_func_rdd bundle.1 bundle.2 c
    let trip := ctx.data_deserializer_res dc.1
    let s2 := addStat s1 "driver_deserialize_data" (tm.d4 p)
    let c3 := CacheManagerM.join dc.2 trip.2.1
    let s3 := addStat s2 "driver_cache_join" (tm.d5 p)
    let s4 := applyStatUpdates s3 trip.2.2
    let rest := runJob_distributed_loop ctx tm serialized_func_rdd ps c3 s4
    (trip.1 :: rest.1, rest.2.1, rest.2.2)

/-- `Context._runJob_distributed` (context.py lines 266-311) under a
sequential in-process pool: serialize `(func, rdd)` once (line 268), then run
the dispatch loop. -/
def runJob_distributed_seq (ctx : ContextM α μ ρ σ) (tm : ClockModel α)
    (func : FuncT ρ σ) (compute : ComputeT α μ ρ)
    (parts : List (Partition α)) (c : CacheManagerM μ) (s : StatsL) :
    List σ × CacheManagerM μ × StatsL :=
  runJob_distributed_loop ctx tm (ctx.serializer (func, compute)) parts c s

/-- Which execution path `runJob` selects. -/
inductive ExecPath where
  | localPath
  | distributedPath
deriving DecidableEq, Repr

/-- The path selection of `Context.runJob` (context.py line 248):
`if allowLocal or isinstance(self._pool, DummyPool)`. -/
def chooseExecPath (allowLocal : Bool) (pool : PoolM) : ExecPath :=
  if allowLocal || pool.isDummy then .localPath else .distributedPath

/-- The `partitions` defaulting of `Context.runJob` (context.py lines
244-245): `if not partitions: partitions = rdd.partitions()`.  Python
truthiness makes both `None` and an empty sequence falsy. -/
def effective_partitions (partitions : Option (List (Partition α)))
    (rdd_partitions : List (Partition α)) : List (Partition α) :=
  match partitions with
  | none => rdd_partitions
  | some ps => if ps.isEmpty then rdd_partitions else ps

/-- The `map_result` sequence of `Context.runJob` (context.py lines 244-252):
default the partitions, choose the path, and produce the per-partition result
sequence. -/
def runJob_mapResult (ctx : ContextM α μ ρ σ) (tm : ClockModel α)
    (func : FuncT ρ σ) (compute : ComputeT α μ ρ)
    (rdd_partitions : List (Partition α)) (partitions : Option (List (Partition α)))
    (allowLocal : Bool) (c : CacheManagerM μ) (s : StatsL) : List σ :=
  match chooseExecPath allowLocal ctx.pool with
  | .localPath =>
    (runJob_local func compute (effective_partitions partitions rdd_partitions) c).1
  | .distributedPath =>
    (runJob_distributed_seq ctx tm func compute
      (effective_partitions partitions rdd_partitions) c s).1

/-- `Context.runJob` with a result handler (context.py lines 254-255):
returns `resultHandler(map_result)`. -/
def runJob_withHandler (ctx : ContextM α μ ρ σ) (tm : ClockModel α)
    (func : FuncT ρ σ) (compute : ComputeT α μ ρ)
    (rdd_partitions : List (Partition α)) (partitions : Option (List (Partition α)))
    (allowLocal : Bool) (c : CacheManagerM μ) (s : StatsL)
    (resultHandler : List σ → ω) : ω :=
  resultHandler (runJob_mapResult ctx tm func compute rdd_partitions partitions allowLocal c s)

/-- `Context.runJob` without a result handler (context.py line 256):
returns `list(map_result)`, forcing the whole sequence. -/
def runJob_noHandler (ctx : ContextM α μ ρ σ) (tm : ClockModel α)
    (func : FuncT ρ σ) (compute : ComputeT α μ ρ)
    (rdd_partitions : List (Partition α)) (partitions : Option (List (Partition α)))
    (allowLocal : Bool) (c : CacheManagerM μ) (s : StatsL) : List σ :=
  runJob_mapResult ctx tm func compute rdd_partitions partitions allowLocal c s

lemma joinObjs_clone (c : CacheManagerM μ) (pred : Ident → Bool) :
    joinObjs c.cache_obj (CacheManagerM.clone_contains c pred).cache_obj = c.cache_obj := by
  simp [CacheManagerM.clone_contains, joinObjs_filter_self]

lemma join_get_not_in (c : CacheManagerM μ) (b : List Ident) :
    CacheManagerM.join c (c.get_not_in b) = c := by
  simp [CacheManagerM.join, CacheManagerM.get_not_in, joinObjs_filter_self]

lemma runJob_local_length (func : FuncT ρ σ) (compute : ComputeT α μ ρ) :
    ∀ (parts : List (Partition α)) (c : CacheManagerM μ),
      (runJob_local func compute parts c).1.length = parts.length := by
  intro parts
  induction parts with
  | nil => intro c; rfl
  | cons p ps ih => intro c; simp [runJob_local, ih]

lemma runJob_distributed_loop_eq_local (ctx : ContextM α μ ρ σ) (tm : ClockModel α)
    (func : FuncT ρ σ) (compute : ComputeT α μ ρ)
    (hdeser : ∀ z, ctx.deserializer z = z)
    (hsres : ∀ z, ctx.data_serializer_res z = z)
    (hdres : ∀ z, ctx.data_deserializer_res z = z)
    (hdcm : ∀ z, ctx.data_deserializer_cm z = z)
    (hdp : ∀ z, ctx.data_deserializer_p z = z) :
    ∀ (parts : List (Partition α)) (c : CacheManagerM μ) (s : StatsL),
      (runJob_distributed_loop ctx tm (func, compute) parts c s).1
          = (runJob_local func compute parts c).1 ∧
      (runJob_distributed_loop ctx tm (func, compute) parts c s).2.1
          = (runJob_local func compute parts c).2 := by
  intro parts
  induction parts with
  | nil => intro c s; exact ⟨rfl, rfl⟩
  | cons p ps ih =>
    intro c s
    simp only [runJob_distributed_loop, prepare_bundle, runJob_map_seq, hdeser, hsres, hdres,
      hdcm, hdp, joinObjs_clone, CacheManagerM.mk_cache_obj, join_get_not_in,
      runJob_local, evalPartition]
    exact ⟨congrArg (List.cons _) (ih _ _).1, (ih _ _).2⟩

/-- C2.  With a sequential pool and identity closure and data
serializer/deserializer pairs, the distributed path produces exactly the
result sequence of the local path — one result per partition, in the same
order — and therefore `runJob` with `allowLocal=true` and `runJob` routed
through the distributed path return identical result sequences. -/
theorem local_distributed_equivalence (ctx : ContextM α μ ρ σ) (tm : ClockModel α)
    (func : FuncT ρ σ) (compute : ComputeT α μ ρ)
    (rdd_partitions : List (Partition α)) (partitions : Option (List (Partition α)))
    (parts : List (Partition α)) (c : CacheManagerM μ) (s : StatsL)
    (hser : ∀ z, ctx.serializer z = z)
    (hdeser : ∀ z, ctx.deserializer z = z)
    (hsres : ∀ z, ctx.data_serializer_res z = z)
    (hdres : ∀ z, ctx.data_deserializer_res z = z)
    (hdcm : ∀ z, ctx.data_deserializer_cm z = z)
    (hdp : ∀ z, ctx.data_deserializer_p z = z) :
    (runJob_distributed_seq ctx tm func compute parts c s).1
        = (runJob_local func compute parts c).1 ∧
    (runJob_local func compute parts c).1.length = parts.length ∧
    runJob_noHandler ctx tm func compute rdd_partitions partitions true c s
        = runJob_noHandler ctx tm func compute rdd_partitions partitions false c s := by
  have hmain := runJob_distributed_loop_eq_local ctx tm func compute hdeser hsres hdres hdcm hdp
  refine ⟨?_, runJob_local_length func compute parts c, ?_⟩
  · rw [runJob_distributed_seq, hser]
    exact (hmain parts c s).1
  · cases hb : ctx.pool.isDummy with
    | true => simp [runJob_noHandler, runJob_mapResult, chooseExecPath, hb]
    | false =>
      simp only [runJob_noHandler, runJob_mapResult, chooseExecPath, hb, Bool.or_true,
        Bool.or_false, Bool.true_or, Bool.false_or, if_true, if_false]
      rw [runJob_distributed_seq, hser]
      exact ((hmain _ c s).1).symm

/-- Identity-configured Context over `Nat` payloads, with a non-trivial pool
flag so that `allowLocal=false` exercises the distributed path. -/
def idCtx : ContextM Nat Nat Nat Nat :=
  ⟨⟨false⟩, fun z => z, fun z => z, fun z => z, fun z => z, fun z => z, fun z => z⟩

/-- Zero clock model for witnesses. -/
def tm0 : ClockModel Nat :=
  ⟨fun _ => 0, fun _ => 0, fun _ => 0, fun _ => 0, fun _ => 0, fun _ => []⟩

/-- Concrete map function for witnesses. -/
def funcW : FuncT Nat Nat := fun tc r => r + tc.partition_id

/-- Concrete compute collaborator for witnesses. -/
def computeW : ComputeT Nat Nat Nat := fun p _ c => (p.x, c)

/-- Concrete partitions for witnesses. -/
def partsW : List (Partition Nat) := [⟨10, 0⟩, ⟨20, 1⟩]

/-- Concrete driver cache for witnesses. -/
def cacheW : CacheManagerM Nat := ⟨[((7, 0), 5)]⟩

/-- Witness for C2 at a concrete deterministic computation. -/
theorem local_distributed_equivalence_witness :
    (runJob_distributed_seq idCtx tm0 funcW computeW partsW cacheW []).1
        = (runJob_local funcW computeW partsW cacheW).1 ∧
    (runJob_local funcW computeW partsW cacheW).1.length = 2 ∧
    runJob_noHandler idCtx tm0 funcW computeW partsW none true cacheW []
        = runJob_noHandler idCtx tm0 funcW computeW partsW none false cacheW [] :=
  ⟨(local_distributed_equivalence idCtx tm0 funcW computeW partsW none partsW cacheW []
      (fun _ => rfl) (fun _ => rfl) (fun _ => rfl) (fun _ => rfl) (fun _ => rfl)
      (fun _ => rfl)).1,
   (local_distributed_equivalence idCtx tm0 funcW computeW partsW none partsW cacheW []
      (fun _ => rfl) (fun _ => rfl) (fun _ => rfl) (fun _ => rfl) (fun _ => rfl)
      (fun _ => rfl)).2.1,
   (local_distributed_equivalence idCtx tm0 funcW computeW partsW none partsW cacheW []
      (fun _ => rfl) (fun _ => rfl) (fun _ => rfl) (fun _ => rfl) (fun _ => rfl)
      (fun _ => rfl)).2.2⟩

/-- C5.  `runJob` selects the local path exactly when `allowLocal` is set or
the configured pool is the trivial `DummyPool`; in every other case it selects
the distributed path (context.py line 248; `runJob_mapResult` dispatches on
`chooseExecPath`). -/
theorem runJob_path_selection (allowLocal : Bool) (pool : PoolM) :
    (chooseExecPath allowLocal pool = ExecPath.localPath
        ↔ (allowLocal = true ∨ pool.isDummy = true)) ∧
    (chooseExecPath allowLocal pool = ExecPath.distributedPath
        ↔ (allowLocal = false ∧ pool.isDummy = false)) := by
  obtain ⟨b⟩ := pool
  cases allowLocal <;> cases b <;> simp [chooseExecPath]

/-- Witness for C5. -/
theorem runJob_path_selection_witness :
    chooseExecPath false ⟨true⟩ = ExecPath.localPath ∧
    chooseExecPath false ⟨false⟩ = ExecPath.distributedPath :=
  ⟨(runJob_path_selection false ⟨true⟩).1.mpr (Or.inr rfl),
   (runJob_path_selection false ⟨false⟩).2.mpr ⟨rfl, rfl⟩⟩

lemma runJob_local_getD (func : FuncT ρ σ) (compute : ComputeT α μ ρ) :
    ∀ (parts : List (Partition α)) (c : CacheManagerM μ) (i : Nat) (d : σ)
      (pd : Partition α), i < parts.length →
      (runJob_local func compute parts c).1.getD i d
        = (evalPartition func compute (parts.getD i pd)
            ((runJob_local func compute (parts.take i) c).2)).1 := by
  intro parts
  induction parts with
  | nil => intro c i d pd h; simp at h
  | cons p ps ih =>
    intro c i d pd h
    cases i with
    | zero => simp [runJob_local]
    | succ i =>
      have hi : i < ps.length := by simpa using h
      simp only [runJob_local, List.getD_cons_succ, List.take_succ_cons]
      exact ih ((evalPartition func compute p c).2) i d pd hi

/-- C6.  With the trivial (DummyPool) pool, `runJob` returns `resultHandler`
applied to the per-partition result sequence, dispatched in the order of the
given `partitions` sequence; with no handler it returns that sequence forced
into a list, with one fully executed result per partition: the `i`-th result
is the evaluation of the `i`-th dispatched partition against the cache state
reached after the partitions before it. -/
theorem dummy_pool_runJob (ctx : ContextM α μ ρ σ) (tm : ClockModel α)
    (func : FuncT ρ σ) (compute : ComputeT α μ ρ)
    (rdd_partitions : List (Partition α)) (partitions : Option (List (Partition α)))
    (allowLocal : Bool) (c : CacheManagerM μ) (s : StatsL)
    (resultHandler : List σ → ω) (d : σ) (pd : Partition α)
    (h : ctx.pool.isDummy = true) :
    runJob_withHandler ctx tm func compute rdd_partitions partitions allowLocal c s
        resultHandler
      = resultHandler
          (runJob_local func compute (effective_partitions partitions rdd_partitions) c).1 ∧
    runJob_noHandler ctx tm func compute rdd_partitions partitions allowLocal c s
      = (runJob_local func compute (effective_partitions partitions rdd_partitions) c).1 ∧
    (runJob_noHandler ctx tm func compute rdd_partitions partitions allowLocal c s).length
      = (effective_partitions partitions rdd_partitions).length ∧
    ∀ i, i < (effective_partitions partitions rdd_partitions).length →
      (runJob_noHandler ctx tm func compute rdd_partitions partitions allowLocal c s).getD i d
        = (evalPartition func compute
            ((effective_partitions partitions rdd_partitions).getD i pd)
            ((runJob_local func compute
              ((effective_partitions partitions rdd_partitions).take i) c).2)).1 := by
  have hpath : chooseExecPath allowLocal ctx.pool = ExecPath.localPath := by
    simp [chooseExecPath, h]
  have hmap : runJob_mapResult ctx tm func compute rdd_partitions partitions allowLocal c s
      = (runJob_local func compute (effective_partitions partitions rdd_partitions) c).1 := by
    simp only [runJob_mapResult]
    rw [hpath]
  refine ⟨?_, ?_, ?_, ?_⟩
  · rw [runJob_withHandler, hmap]
  · rw [runJob_noHandler, hmap]
  · rw [runJob_noHandler, hmap]
    exact runJob_local_length func compute _ c
  · intro i hi
    rw [runJob_noHandler, hmap]
    exact runJob_local_getD func compute _ c i d pd hi

/-- Identity-configured Context over `Nat` payloads with the trivial pool. -/
def dummyCtx : ContextM Nat Nat Nat Nat :=
  ⟨⟨true⟩, fun z => z, fun z => z, fun z => z, fun z => z, fun z => z, fun z => z⟩

/-- Concrete result handler for witnesses. -/
def handlerW : List Nat → Nat := fun l => l.foldl (· + ·) 0

/-- Witness for C6. -/
theorem dummy_pool_runJob_witness :
    runJob_withHandler dummyCtx tm0 funcW computeW partsW none false cacheW [] handlerW
      = handlerW (runJob_local funcW computeW (effective_partitions none partsW) cacheW).1 ∧
    (runJob_noHandler dummyCtx tm0 funcW computeW partsW none false cacheW []).getD 0 0
      = (evalPartition funcW computeW ((effective_partitions none partsW).getD 0 ⟨0, 0⟩)
          ((runJob_local funcW computeW ((effective_partitions none partsW).take 0)
            cacheW).2)).1 :=
  ⟨(dummy_pool_runJob dummyCtx tm0 funcW computeW partsW none false cacheW [] handlerW 0
      ⟨0, 0⟩ rfl).1,
   (dummy_pool_runJob dummyCtx tm0 funcW computeW partsW none false cacheW [] handlerW 0
      ⟨0, 0⟩ rfl).2.2.2 0 (by decide)⟩

/-- C10.  Passing an empty `partitions` sequence to `runJob` is treated
exactly like the default `None`: the engine substitutes all partitions of the
dataset, so the job runs over every partition rather than over zero
partitions. -/
theorem empty_partitions_runs_all (ctx : ContextM α μ ρ σ) (tm : ClockModel α)
    (func : FuncT ρ σ) (compute : ComputeT α μ ρ)
    (rdd_partitions : List (Partition α)) (allowLocal : Bool)
    (c : CacheManagerM μ) (s : StatsL) (resultHandler : List σ → ω) :
    effective_partitions (some ([] : List (Partition α))) rdd_partitions = rdd_partitions ∧
    effective_partitions (none : Option (List (Partition α))) rdd_partitions
      = rdd_partitions ∧
    runJob_withHandler ctx tm func compute rdd_partitions (some []) allowLocal c s
        resultHandler
      = runJob_withHandler ctx tm func compute rdd_partitions none allowLocal c s
        resultHandler ∧
    runJob_noHandler ctx tm func compute rdd_partitions (some []) allowLocal c s
      = runJob_noHandler ctx tm func compute rdd_partitions none allowLocal c s :=
  ⟨rfl, rfl, rfl, rfl⟩

/-- The cache fragment as the worker decodes it: the worker applies the data
deserializer (context.py lines 35 and 38) to the bundle field that `prepare`
built at line 277. -/
def worker_received_cache (ctx : ContextM α μ ρ σ) (cm : CacheManagerM μ)
    (p : Partition α) : CacheManagerM μ :=
  ctx.data_deserializer_cm (prepare_bundle ctx cm p).2

/-- The partition as the worker decodes it: the worker applies the data
deserializer (context.py line 45) to the bundle field that `prepare` built at
line 282. -/
def worker_received_partition (ctx : ContextM α μ ρ σ) (cm : CacheManagerM μ)
    (p : Partition α) : Partition α :=
  ctx.data_deserializer_p (prepare_bundle ctx cm p).1

/-- Example data serializer on cache fragments: adds one to every value. -/
def serAddOne (cm : CacheManagerM Nat) : CacheManagerM Nat :=
  ⟨cm.cache_obj.map fun e => (e.1, e.2 + 1)⟩

/-- Deserializer inverse to `serAddOne`. -/
def deserSubOne (cm : CacheManagerM Nat) : CacheManagerM Nat :=
  ⟨cm.cache_obj.map fun e => (e.1, e.2 - 1)⟩

/-- Example data serializer on partitions: adds one to the data. -/
def serAddOneP (p : Partition Nat) : Partition Nat := ⟨p.x + 1, p.index⟩

/-- Deserializer inverse to `serAddOneP`. -/
def deserSubOneP (p : Partition Nat) : Partition Nat := ⟨p.x - 1, p.index⟩

/-- Context configured with the `serAddOne`/`deserSubOne` and
`serAddOneP`/`deserSubOneP` data pairs. -/
def plusCtx : ContextM Nat Nat Nat Nat :=
  ⟨⟨false⟩, fun z => z, fun z => z, fun z => z, fun z => z, deserSubOne, deserSubOneP⟩

/-- Concrete driver cache for the C3 evaluation. -/
def cmC3 : CacheManagerM Nat := ⟨[((7, 0), 10)]⟩

/-- Concrete partition for the C3 evaluation. -/
def pC3 : Partition Nat := ⟨10, 0⟩

/-- C3 evaluated at its failing input: `deserSubOne` is inverse to
`serAddOne` (and likewise for partitions), yet because `prepare` applies
`self._data_deserializer` instead of `self._data_serializer` (context.py
lines 277 and 282), the worker decodes value `8` where the original fragment
held `10`, and partition data `8` where the original held `10`. -/
theorem distributed_encode_bug :
    deserSubOne (serAddOne (cmC3.clone_contains fun i => decide (i.2 = pC3.index)))
        = cmC3.clone_contains (fun i => decide (i.2 = pC3.index)) ∧
    deserSubOneP (serAddOneP pC3) = pC3 ∧
    worker_received_cache plusCtx cmC3 pC3 = ⟨[((7, 0), 8)]⟩ ∧
    worker_received_cache plusCtx cmC3 pC3
        ≠ cmC3.clone_contains (fun i => decide (i.2 = pC3.index)) ∧
    worker_received_partition plusCtx cmC3 pC3 = ⟨8, 0⟩ ∧
    worker_received_partition plusCtx cmC3 pC3 ≠ pC3 := by
  refine ⟨rfl, rfl, rfl, ?_, rfl, ?_⟩ <;> decide

/-- The kind of value a call site supplies as the `other` argument of
`CacheManager.join`: either a CacheManager instance, or a raw `cache_obj`
entry map. -/
inductive JoinArgKind (μ : Type) where
  | cacheManagerArg (cm : CacheManagerM μ)
  | cacheObjArg (o : List (Ident × μ))
deriving DecidableEq

/-- Whether the supplied argument is a CacheManager instance. -/
def JoinArgKind.isCacheManager : JoinArgKind μ → Bool
  | .cacheManagerArg _ => true
  | .cacheObjArg _ => false

/-- What the worker task runner passes to `join` when the worker singleton
already exists: context.py line 38 supplies
`data_deserializer(cache_manager).cache_obj` — the fragment's raw entry map,
not the fragment itself. -/
def runJob_map_joinArg (fragment : CacheManagerM μ) : JoinArgKind μ :=
  .cacheObjArg fragment.cache_obj

/-- What the driver passes to `join` for each returned cache delta:
context.py line 304 supplies `cache_result`, the CacheManager instance
produced by `get_not_in` (line 54). -/
def driver_joinArg (delta : CacheManagerM μ) : JoinArgKind μ :=
  .cacheManagerArg delta

/-- C4 evaluated at its failing input: the worker call site does not supply a
CacheManager instance to `join` — it supplies the fragment's `cache_obj`
attribute — while the driver call site does, so the two call sites do not
supply the same kind of value. -/
theorem join_argument_kind_mismatch :
    (runJob_map_joinArg (⟨[((7, 0), 10)]⟩ : CacheManagerM Nat)).isCacheManager = false ∧
    (driver_joinArg (⟨[((7, 1), 11)]⟩ : CacheManagerM Nat)).isCacheManager = true :=
  ⟨rfl, rfl⟩

/-- Fallible map function: the user computation may raise. -/
abbrev FuncE (ρ σ ε : Type) := TaskContext → ρ → Except ε σ

/-- Fallible `rdd.compute` collaborator. -/
abbrev ComputeE (α μ ρ ε : Type) :=
  Partition α → TaskContext → CacheManagerM μ → Except ε (ρ × CacheManagerM μ)

/-- Exception-aware evaluation of one partition (context.py lines 48-49 and
260-264 contain no exception handler, so an error from `compute` or `func`
is the result of the whole evaluation). -/
def evalPartitionE (func : FuncE ρ σ ε) (compute : ComputeE α μ ρ ε)
    (p : Partition α) (c : CacheManagerM μ) : Except ε (σ × CacheManagerM μ) :=
  match compute p ⟨0, p.index⟩ c with
  | .error e => .error e
  | .ok rc =>
    match func ⟨0, p.index⟩ rc.1 with
    | .error e => .error e
    | .ok v => .ok (v, rc.2)

/-- Exception-aware `Context._runJob_local` followed by the forcing
`list(map_result)` (context.py lines 256-264): a raise while draining the
generator aborts the whole job with that exception. -/
def runJob_localE (func : FuncE ρ σ ε) (compute : ComputeE α μ ρ ε) :
    List (Partition α) → CacheManagerM μ → Except ε (List σ × CacheManagerM μ)
  | [], c => .ok ([], c)
  | p :: ps, c =>
    match evalPartitionE func compute p c with
    | .error e => .error e
    | .ok vc =>
      match runJob_localE func compute ps vc.2 with
      | .error e => .error e
      | .ok rest => .ok (vc.1 :: rest.1, rest.2)

/-- Exception-aware `DummyPool.map` (context.py lines 411-412) drained to a
list: the generator applies `f` inline, so a raising task aborts the whole
map with that exception. -/
def dummyPool_mapE (f : β → Except ε γ) : List β → Except ε (List γ)
  | [] => .ok []
  | b :: bs =>
    match f b with
    | .error e => .error e
    | .ok y =>
      match dummyPool_mapE f bs with
      | .error e => .error e
      | .ok ys => .ok (y :: ys)

/-- C7.  The engine catches no exceptions and synthesizes no partial results:
if the first failing step of a job — the computation or `compute` at some
dispatched partition, or a task inside the pool's `map` — raises `e` after
every earlier partition succeeded, then the whole job evaluates to exactly
that error `e`. -/
theorem error_propagation (func : FuncE ρ σ ε) (compute : ComputeE α μ ρ ε)
    (pd : Partition α) (f : β → Except ε γ) (bd : β) :
    (∀ (parts : List (Partition α)) (c : CacheManagerM μ) (i : Nat) (rs : List σ)
        (ci : CacheManagerM μ) (e : ε),
      i < parts.length →
      runJob_localE func compute (parts.take i) c = .ok (rs, ci) →
      evalPartitionE func compute (parts.getD i pd) ci = .error e →
      runJob_localE func compute parts c = .error e) ∧
    (∀ (xs : List β) (i : Nat) (ys : List γ) (e : ε),
      i < xs.length →
      dummyPool_mapE f (xs.take i) = .ok ys →
      f (xs.getD i bd) = .error e →
      dummyPool_mapE f xs = .error e) := by
  constructor
  · intro parts
    induction parts with
    | nil => intro c i rs ci e h; simp at h
    | cons p ps ih =>
      intro c i rs ci e h htake heval
      cases i with
      | zero =>
        simp only [List.take_zero, runJob_localE, Except.ok.injEq, Prod.mk.injEq] at htake
        obtain ⟨-, hci⟩ := htake
        subst hci
        simp only [List.getD_cons_zero] at heval
        simp only [runJob_localE, heval]
      | succ i =>
        have hlen : i < ps.length := by simpa using h
        simp only [List.take_succ_cons, runJob_localE] at htake
        split at htake
        · simp at htake
        · rename_i vc hev
          split at htake
          · simp at htake
          · rename_i rest hrest
            simp only [Except.ok.injEq, Prod.mk.injEq] at htake
            obtain ⟨-, hci⟩ := htake
            subst hci
            simp only [List.getD_cons_succ] at heval
            have hrec := ih vc.2 i rest.1 rest.2 e hlen (by rw [hrest]) heval
            simp only [runJob_localE, hev, hrec]
  · intro xs
    induction xs with
    | nil => intro i ys e h; simp at h
    | cons b bs ih =>
      intro i ys e h htake herr
      cases i with
      | zero =>
        simp only [List.getD_cons_zero] at herr
        simp only [dummyPool_mapE, herr]
      | succ i =>
        have hlen : i < bs.length := by simpa using h
        simp only [List.take_succ_cons, dummyPool_mapE] at htake
        split at htake
        · simp at htake
        · rename_i y hfb
          split at htake
          · simp at htake
          · rename_i ys0 hrest
            simp only [List.getD_cons_succ] at herr
            have hrec := ih i ys0 e hlen hrest herr
            simp only [dummyPool_mapE, hfb, hrec]

/-- Concrete fallible compute that raises on partition index 1. -/
def computeEW : ComputeE Nat Nat Nat String :=
  fun p _ c => if p.index = 1 then .error "boom" else .ok (p.x, c)

/-- Concrete fallible map function that never raises. -/
def funcEW : FuncE Nat Nat String := fun _ r => .ok r

/-- Concrete partitions for the C7 witness. -/
def partsEW : List (Partition Nat) := [⟨10, 0⟩, ⟨20, 1⟩, ⟨30, 2⟩]

/-- Concrete fallible pool task that raises on input 1. -/
def fEW (b : Nat) : Except String Nat := if b = 1 then .error "bad" else .ok b

/-- Concrete pool inputs for the C7 witness. -/
def xsEW : List Nat := [0, 1, 2]

/-- Witness for C7 at a job whose second partition raises. -/
theorem error_propagation_witness :
    runJob_localE funcEW computeEW partsEW cacheW = Except.error "boom" ∧
    dummyPool_mapE fEW xsEW = Except.error "bad" :=
  ⟨(error_propagation funcEW computeEW ⟨0, 0⟩ fEW 0).1 partsEW cacheW 1 [10] cacheW "boom"
      (by decide) rfl rfl,
   (error_propagation funcEW computeEW ⟨0, 0⟩ fEW 0).2 xsEW 1 [0] "bad"
      (by decide) rfl rfl⟩

/-- `Context.newRddId` (context.py lines 119-121): increment the process-wide
class attribute `Context.__last_rdd_id` (line 89) and return it.  The class
attribute — shared by every `Context` instance in the process — is the
threaded counter state. -/
def newRddId (last : Nat) : Nat × Nat := (last + 1, last + 1)

/-- The identities returned by `k` successive `newRddId` calls in one
process, starting from counter state `c0`. -/
def rddIds (c0 : Nat) : Nat → List Nat
  | 0 => []
  | k + 1 => (newRddId c0).1 :: rddIds (newRddId c0).2 k

lemma rddIds_eq (c0 k : Nat) : rddIds c0 k = (List.range k).map fun j => c0 + j + 1 := by
  induction k generalizing c0 with
  | zero => rfl
  | succ k ih =>
    rw [rddIds, List.range_succ_eq_map, List.map_cons, List.map_map]
    refine congrArg₂ List.cons rfl ?_
    rw [ih]
    refine List.map_congr_left fun j _ => ?_
    simp only [Function.comp, newRddId]
    omega

/-- C8.  The dataset-identity allocator is strictly increasing process-wide:
in any sequence of `newRddId` calls, every call returns an identity strictly
greater than every previously returned one, so no two datasets receive the
same identity. -/
theorem newRddId_strictly_increasing (c0 k i j : Nat) (hij : i < j) (hjk : j < k) :
    (rddIds c0 k).getD i 0 < (rddIds c0 k).getD j 0 := by
  have hi : i < ((List.range k).map fun j => c0 + j + 1).length := by simp; omega
  have hj : j < ((List.range k).map fun j => c0 + j + 1).length := by simp; omega
  rw [rddIds_eq, List.getD_eq_getElem _ _ hi, List.getD_eq_getElem _ _ hj]
  simp only [List.getElem_map, List.getElem_range]
  omega

/-- Witness for C8. -/
theorem newRddId_strictly_increasing_witness :
    (rddIds 0 3).getD 0 0 < (rddIds 0 3).getD 2 0 :=
  newRddId_strictly_increasing 0 3 0 2 (by decide) (by decide)

lemma getStat_le_addStat (s : StatsL) (k : String) (v : ℚ) (hv : 0 ≤ v) (q : String) :
    getStat s q ≤ getStat (addStat s k v) q := by
  induction s with
  | nil =>
    simp only [addStat, getStat]
    split
    · simpa using hv
    · exact le_refl 0
  | cons e s ih =>
    simp only [addStat]
    by_cases hek : e.1 = k
    · rw [if_pos hek]
      simp only [getStat]
      by_cases heq : e.1 = q
      · rw [if_pos heq, if_pos heq]
        exact le_add_of_nonneg_right hv
      · rw [if_neg heq, if_neg heq]
    · rw [if_neg hek]
      simp only [getStat]
      by_cases heq : e.1 = q
      · rw [if_pos heq, if_pos heq]
      · rw [if_neg heq, if_neg heq]
        exact ih

lemma hasStat_addStat (k : String) (v : ℚ) (q : String) :
    ∀ s : StatsL, hasStat s q = true → hasStat (addStat s k v) q = true := by
  intro s
  induction s with
  | nil => intro h; simp [hasStat] at h
  | cons e s ih =>
    intro h
    simp only [hasStat, List.any_cons, Bool.or_eq_true, decide_eq_true_eq] at h
    by_cases hek : e.1 = k
    · simp only [addStat, if_pos hek, hasStat, List.any_cons, Bool.or_eq_true,
        decide_eq_true_eq]
      exact h
    · simp only [addStat, if_neg hek, hasStat, List.any_cons, Bool.or_eq_true,
        decide_eq_true_eq]
      rcases h with h | h
      · exact Or.inl h
      · exact Or.inr (by simpa [hasStat] using ih (by simpa [hasStat] using h))

lemma getStat_le_applyStatUpdates :
    ∀ (us : List (String × ℚ)) (s : StatsL) (q : String),
      (∀ u ∈ us, 0 ≤ u.2) →
      getStat s q ≤ getStat (applyStatUpdates s us) q := by
  intro us
  induction us with
  | nil => intro s q _; exact le_refl _
  | cons u us ih =>
    intro s q hnn
    exact le_trans (getStat_le_addStat s u.1 u.2 (hnn u (List.mem_cons_self u us)) q)
      (ih (addStat s u.1 u.2) q fun w hw => hnn w (List.mem_cons_of_mem u hw))

lemma hasStat_applyStatUpdates :
    ∀ (us : List (String × ℚ)) (s : StatsL) (q : String),
      hasStat s q = true → hasStat (applyStatUpdates s us) q = true := by
  intro us
  induction us with
  | nil => intro s q h; exact h
  | cons u us ih =>
    intro s q h
    exact ih (addStat s u.1 u.2) q (hasStat_addStat u.1 u.2 q s h)

lemma stats_loop_mono (ctx : ContextM α μ ρ σ) (tm : ClockModel α)
    (serialized : FuncT ρ σ × ComputeT α μ ρ)
    (hres : ∀ z, ctx.data_deserializer_res (ctx.data_serializer_res z) = z)
    (hnn : ∀ p : Partition α,
      0 ≤ tm.d1 p ∧ 0 ≤ tm.d2 p ∧ 0 ≤ tm.d3 p ∧ 0 ≤ tm.d4 p ∧ 0 ≤ tm.d5 p)
    (hw : ∀ (p : Partition α) (u : String × ℚ), u ∈ tm.wstats p → 0 ≤ u.2) :
    ∀ (parts : List (Partition α)) (c : CacheManagerM μ) (s : StatsL) (q : String),
      getStat s q
          ≤ getStat (runJob_distributed_loop ctx tm serialized parts c s).2.2 q ∧
      (hasStat s q = true →
        hasStat (runJob_distributed_loop ctx tm serialized parts c s).2.2 q = true) := by
  intro parts
  induction parts with
  | nil => intro c s q; exact ⟨le_refl _, fun h => h⟩
  | cons p ps ih =>
    intro c s q
    obtain ⟨h1, h2, h3, h4, h5⟩ := hnn p
    simp only [runJob_distributed_loop, runJob_map_seq, hres]
    constructor
    · refine le_trans ?_ (ih _ _ q).1
      refine le_trans (getStat_le_addStat s "driver_cache_clone" (tm.d1 p) h1 q) ?_
      refine le_trans (getStat_le_addStat _ "driver_cache_serialize" (tm.d2 p) h2 q) ?_
      refine le_trans (getStat_le_addStat _ "driver_serialize_data" (tm.d3 p) h3 q) ?_
      refine le_trans (getStat_le_addStat _ "driver_deserialize_data" (tm.d4 p) h4 q) ?_
      refine le_trans (getStat_le_addStat _ "driver_cache_join" (tm.d5 p) h5 q) ?_
      exact getStat_le_applyStatUpdates (tm.wstats p) _ q fun u hu => hw p u hu
    · intro h
      refine (ih _ _ q).2 ?_
      refine hasStat_applyStatUpdates _ _ q ?_
      refine hasStat_addStat _ _ q _ ?_
      refine hasStat_addStat _ _ q _ ?_
      refine hasStat_addStat _ _ q _ ?_
      refine hasStat_addStat _ _ q _ ?_
      exact hasStat_addStat _ _ q _ h

/-- C9.  The per-Context timing statistics are cumulative: given that every
measured duration is non-negative (the clock is monotone) and the data codec
round-trips, a distributed `runJob` only ever adds to `self._stats` — every
key's value afterwards is at least its value before, and no existing entry is
removed. -/
theorem stats_cumulative (ctx : ContextM α μ ρ σ) (tm : ClockModel α)
    (func : FuncT ρ σ) (compute : ComputeT α μ ρ)
    (parts : List (Partition α)) (c : CacheManagerM μ) (s : StatsL)
    (hres : ∀ z, ctx.data_deserializer_res (ctx.data_serializer_res z) = z)
    (hnn : ∀ p : Partition α,
      0 ≤ tm.d1 p ∧ 0 ≤ tm.d2 p ∧ 0 ≤ tm.d3 p ∧ 0 ≤ tm.d4 p ∧ 0 ≤ tm.d5 p)
    (hw : ∀ (p : Partition α) (u : String × ℚ), u ∈ tm.wstats p → 0 ≤ u.2) :
    (∀ q, getStat s q
        ≤ getStat (runJob_distributed_seq ctx tm func compute parts c s).2.2 q) ∧
    (∀ q, hasStat s q = true →
      hasStat (runJob_distributed_seq ctx tm func compute parts c s).2.2 q = true) :=
  ⟨fun q => (stats_loop_mono ctx tm _ hres hnn hw parts c s q).1,
   fun q => (stats_loop_mono ctx tm _ hres hnn hw parts c s q).2⟩

/-- Concrete starting statistics map for the C9 witness. -/
def statsW : StatsL := [("map_exec", 1)]

/-- Witness for C9. -/
theorem stats_cumulative_witness :
    getStat statsW "map_exec"
        ≤ getStat (runJob_distributed_seq idCtx tm0 funcW computeW partsW cacheW
            statsW).2.2 "map_exec" ∧
    hasStat (runJob_distributed_seq idCtx tm0 funcW computeW partsW cacheW
        statsW).2.2 "map_exec" = true :=
  ⟨(stats_cumulative idCtx tm0 funcW computeW partsW cacheW statsW (fun _ => rfl)
      (fun _ => ⟨le_refl 0, le_refl 0, le_refl 0, le_refl 0, le_refl 0⟩)
      (fun _ u hu => absurd hu (List.not_mem_nil u))).1 "map_exec",
   (stats_cumulative idCtx tm0 funcW computeW partsW cacheW statsW (fun _ => rfl)
      (fun _ => ⟨le_refl 0, le_refl 0, le_refl 0, le_refl 0, le_refl 0⟩)
      (fun _ u hu => absurd hu (List.not_mem_nil u))).2 "map_exec" (by decide)⟩

end Pysparkling
